import Mathlib

/-!
Verification of the heat-flow notebook's numerical core (1D and 2D
Crank–Nicolson diffusion stepping).

Scalars are modelled as exact rationals (`ℚ`): the floating-point arrays of
the source are idealized to exact arithmetic, and the library linear solvers
(`scipy.sparse.linalg.spsolve` / `cgs`) are treated as external callables,
modelled either relationally (a solution of `A ·ᵥ x = b`) or as an abstract
solver parameter of the stepping loops.
-/

namespace Heatflow

open Matrix

/-- Coefficient of the band at offset `o` in a list of `(offset, constant)`
bands, as produced by `scipy.sparse.diags` with constant full-length
diagonal arrays.  (For the lists used below all offsets are distinct, so the
sum is just a lookup.) -/
def bandVal (L : List (ℤ × ℚ)) (o : ℤ) : ℚ :=
  ((L.filter (fun p => p.1 = o)).map Prod.snd).sum

/-- Embedding of `scipy.sparse.diags(diagonals, offsets)` for constant
diagonals spanning their whole band: the entry at `(i, j)` is the coefficient
of the band whose offset is `j - i`. -/
def diagsC (L : List (ℤ × ℚ)) (n : ℕ) : Matrix (Fin n) (Fin n) ℚ :=
  Matrix.of fun i j => bandVal L (((j : ℕ) : ℤ) - ((i : ℕ) : ℤ))

/-- 1D implicit matrix from the source (the notebook hard-codes `r = 1`):
`A = diags([-1*ones[:-1], 4*ones, -1*ones[:-1]], [-1, 0, 1])`, of size
`m = N - 2` (interior points only). -/
def A1d (m : ℕ) : Matrix (Fin m) (Fin m) ℚ :=
  diagsC [(-1, -1), (0, 4), (1, -1)] m

/-- 1D explicit matrix from the source:
`B = diags([ones[:-1], ones[:-1]], [-1, 1])`, of size `m = N - 2`. -/
def B1d (m : ℕ) : Matrix (Fin m) (Fin m) ℚ :=
  diagsC [(-1, 1), (1, 1)] m

/-- Modelled from the spec: the general-`r` 1D implicit matrix (the source
hard-codes `r = 1`; the notebook's derivation gives main diagonal `2(1+r)`
and off-diagonals `-r`). -/
def A1dS (r : ℚ) (m : ℕ) : Matrix (Fin m) (Fin m) ℚ :=
  diagsC [(-1, -r), (0, 2 * (1 + r)), (1, -r)] m

/-- Modelled from the spec: the general-`r` 1D explicit matrix as the spec
words it — tridiagonal with zero main diagonal and off-diagonals `r`. -/
def B1dS (r : ℚ) (m : ℕ) : Matrix (Fin m) (Fin m) ℚ :=
  diagsC [(-1, r), (1, r)] m

/-- 2D implicit matrix from the source:
`diags([(1+4r)*ones(N*N), -r*ones(N*N-1), -r*ones(N*N-1), -r*ones(N*N-N),
-r*ones(N*N-N)], [0, -1, 1, N, -N])`.  Note the `±1` bands span all
`N*N - 1` positions, so they cross row boundaries of the flattened grid.
Faithful for `N ≥ 2` only: at `N = 1` the offsets `±1` and `±N` coincide
and the source's `diags` call raises `ValueError` (duplicate offsets),
whereas this model is total. -/
def A2d (r : ℚ) (N : ℕ) : Matrix (Fin (N * N)) (Fin (N * N)) ℚ :=
  diagsC [(0, 1 + 4 * r), (-1, -r), (1, -r), ((N : ℤ), -r), (-(N : ℤ), -r)] (N * N)

/-- 2D explicit matrix from the source:
`diags([(1-4r)*ones(N*N), r*ones(N*N-1), r*ones(N*N-1), r*ones(N*N-N),
r*ones(N*N-N)], [0, -1, 1, -N, N])`, with the same full-length `±1` bands
and the same `N ≥ 2` faithfulness boundary as `A2d` (duplicate offsets at
`N = 1` raise `ValueError` in the source). -/
def M2d (r : ℚ) (N : ℕ) : Matrix (Fin (N * N)) (Fin (N * N)) ℚ :=
  diagsC [(0, 1 - 4 * r), (-1, r), (1, r), (-(N : ℤ), r), ((N : ℤ), r)] (N * N)

/-! ### Basic band lemmas -/

lemma bandVal_nil (o : ℤ) : bandVal [] o = 0 := rfl

lemma bandVal_cons (p : ℤ × ℚ) (L : List (ℤ × ℚ)) (o : ℤ) :
    bandVal (p :: L) o = (if p.1 = o then p.2 else 0) + bandVal L o := by
  by_cases h : p.1 = o <;> simp [bandVal, List.filter_cons, h]

lemma bandVal_eq_zero {L : List (ℤ × ℚ)} {o : ℤ} (h : ∀ p ∈ L, p.1 ≠ o) :
    bandVal L o = 0 := by
  induction L with
  | nil => rfl
  | cons p tl ih =>
      rw [bandVal_cons, ih (fun q hq => h q (List.mem_cons_of_mem p hq))]
      simp [h p (List.mem_cons_self p tl)]

lemma diagsC_apply (L : List (ℤ × ℚ)) (n : ℕ) (i j : Fin n) :
    diagsC L n i j = bandVal L (((j : ℕ) : ℤ) - ((i : ℕ) : ℤ)) := rfl

/-! ### 1D time-stepping loop

The source loop (with `left_bc`/`right_bc` lifted from the notebook's
constants `10`/`10` to parameters, and `spsolve(A, ·)` as an abstract solver
parameter):

```
interior_points = arr[1:-1]
storage[0] = interior_points
for i in range(1, t_end):
    left_side = interior_points[1]
    right_side = interior_points[-2]
    interior_points = B@interior_points
    interior_points[0] = 2*left_bc + left_side
    interior_points[-1] = 2*right_bc + right_side
    interior_points = spsolve(A, interior_points)
    storage[i] = interior_points
```

Interior sizes are written `k + 2` (so the full grid has `N = k + 4` cells):
the accesses `interior_points[1]` and `interior_points[-2]` require at least
two interior points, and raise `IndexError` in the source otherwise. -/

/-- Interior slice `arr[1:-1]` of the full 1D field. -/
def interior (k : ℕ) (arr : Fin (k + 4) → ℚ) : Fin (k + 2) → ℚ :=
  fun i => arr ⟨(i : ℕ) + 1, by omega⟩

/-- Right-hand side assembled by one 1D loop iteration: the product
`B @ interior_points` with slot `0` overwritten by `2*left_bc + left_side`
and the last slot by `2*right_bc + right_side`, where `left_side` /
`right_side` are the previous state's entries at index `1` and `-2`. -/
def rhs1d (k : ℕ) (left right : ℚ) (u : Fin (k + 2) → ℚ) : Fin (k + 2) → ℚ :=
  fun i =>
    if (i : ℕ) = 0 then 2 * left + u ⟨1, by omega⟩
    else if (i : ℕ) = k + 1 then 2 * right + u ⟨k, by omega⟩
    else (B1d (k + 2)).mulVec u i

/-- Modelled from the spec: the right-hand side of the general-`r` 1D step
(the source hard-codes `r = 1`), wording §4.2 — the uniform explicit product
uses the spec's `B` and the injection puts `2*left` plus the previous state's
entry at index `1` into slot `0`, symmetrically on the last slot. -/
def rhs1dS (r : ℚ) (k : ℕ) (left right : ℚ) (u : Fin (k + 2) → ℚ) :
    Fin (k + 2) → ℚ :=
  fun i =>
    if (i : ℕ) = 0 then 2 * left + u ⟨1, by omega⟩
    else if (i : ℕ) = k + 1 then 2 * right + u ⟨k, by omega⟩
    else (B1dS r (k + 2)).mulVec u i

/-- One 1D step: assemble the right-hand side, then call the solver
(standing for `spsolve(A, ·)`). -/
def step1d (k : ℕ) (solver : (Fin (k + 2) → ℚ) → Fin (k + 2) → ℚ)
    (left right : ℚ) (u : Fin (k + 2) → ℚ) : Fin (k + 2) → ℚ :=
  solver (rhs1d k left right u)

/-- States produced by `t` successive applications of `f`, most recent last:
the tail of a stepping loop's trajectory. -/
def iterList {α : Type} (f : α → α) : ℕ → α → List α
  | 0, _ => []
  | t + 1, v => f v :: iterList f t (f v)

/-- Trajectory of the 1D run: snapshot `0` is the interior of the initial
field, followed by `t_end - 1` solver steps. -/
def run1d (k : ℕ) (solver : (Fin (k + 2) → ℚ) → Fin (k + 2) → ℚ)
    (left right : ℚ) (tEnd : ℕ) (arr : Fin (k + 4) → ℚ) :
    List (Fin (k + 2) → ℚ) :=
  interior k arr :: iterList (step1d k solver left right) (tEnd - 1) (interior k arr)

/-- The recorded 1D storage: each snapshot written out as its row of values
(`storage[i] = interior_points`). -/
def storage1d (k : ℕ) (solver : (Fin (k + 2) → ℚ) → Fin (k + 2) → ℚ)
    (left right : ℚ) (tEnd : ℕ) (arr : Fin (k + 4) → ℚ) : List (List ℚ) :=
  (run1d k solver left right tEnd arr).map List.ofFn

/-! ### 2D time-stepping loop

The source:

```
values = np.zeros((N, N)); values[mask] = 10; values = values.flatten()
arr = np.zeros((steps, N, N)); arr[0] = values.reshape((N, N))
for i in range(1, steps):
    values, _ = cgs(A, M@values)
    arr[i] = values.reshape((N, N))
```

`cgs` returns a pair `(solution, info)`; the loop binds the second component
to `_`, i.e. discards it.  The solver is abstracted as a parameter returning
such a pair. -/

/-- Initial 2D field: the flattened `N × N` array with value `val` on the
masked positions and `0` elsewhere. -/
def init2d (N : ℕ) (mask : Finset (Fin (N * N))) (val : ℚ) : Fin (N * N) → ℚ :=
  fun p => if p ∈ mask then val else 0

/-- One 2D step: `values, _ = cgs(A, M@values)` — the solver is applied to
`M @ values` and only the first component of the returned pair is kept. -/
def step2d (N : ℕ) (r : ℚ)
    (solver : (Fin (N * N) → ℚ) → (Fin (N * N) → ℚ) × ℤ)
    (v : Fin (N * N) → ℚ) : Fin (N * N) → ℚ :=
  (solver ((M2d r N).mulVec v)).1

/-- Trajectory of the 2D run: snapshot `0` is the initial flattened field,
followed by `steps - 1` solver steps. -/
def run2d (N : ℕ) (r : ℚ)
    (solver : (Fin (N * N) → ℚ) → (Fin (N * N) → ℚ) × ℤ)
    (steps : ℕ) (v0 : Fin (N * N) → ℚ) : List (Fin (N * N) → ℚ) :=
  v0 :: iterList (step2d N r solver) (steps - 1) v0

/-- The recorded 2D storage, each snapshot as its list of `N * N` values
(the source stores `values.reshape((N, N))`, i.e. the same values). -/
def storage2d (N : ℕ) (r : ℚ)
    (solver : (Fin (N * N) → ℚ) → (Fin (N * N) → ℚ) × ℤ)
    (steps : ℕ) (v0 : Fin (N * N) → ℚ) : List (List ℚ) :=
  (run2d N r solver steps v0).map List.ofFn

/-! ### Concrete instances for counterexamples

A small 2D configuration: `N = 3`, `r = 1/2`, a single masked position (the
center cell, flat index `4`) fixed at `10`. -/

/-- Initial field of the small 2D instance. -/
def v2d0 : Fin (3 * 3) → ℚ := init2d 3 {(4 : Fin (3 * 3))} 10

/-- Exact solution of `A ·ᵥ x = M ·ᵥ v2d0` for the small 2D instance
(`N = 3`, `r = 1/2`), i.e. the field after one implicit step. -/
def x2d1 : Fin (3 * 3) → ℚ :=
  ![1420 / 2709, 1360 / 903, 240 / 301, 1480 / 903, -6190 / 2709,
    1480 / 903, 240 / 301, 1360 / 903, 1420 / 2709]

/-! ### Row sums of banded matrices -/

lemma sum_ite_offset {n : ℕ} (i : Fin n) (o : ℤ) (c : ℚ) :
    (∑ j : Fin n, if o = ((j : ℕ) : ℤ) - ((i : ℕ) : ℤ) then c else 0) =
      if 0 ≤ ((i : ℕ) : ℤ) + o ∧ ((i : ℕ) : ℤ) + o < (n : ℤ) then c else 0 := by
  by_cases h : 0 ≤ ((i : ℕ) : ℤ) + o ∧ ((i : ℕ) : ℤ) + o < (n : ℤ)
  · have hlt : (((i : ℕ) : ℤ) + o).toNat < n := by omega
    rw [if_pos h]
    rw [Finset.sum_eq_single_of_mem ⟨(((i : ℕ) : ℤ) + o).toNat, hlt⟩
      (Finset.mem_univ _)]
    · rw [if_pos (by simp only [Fin.val_mk]; omega)]
    · intro b _ hb
      have hbv : (b : ℕ) ≠ (((i : ℕ) : ℤ) + o).toNat := fun hc => hb (Fin.ext hc)
      rw [if_neg (by omega)]
  · rw [if_neg h, Finset.sum_eq_zero]
    intro j _
    have hj : ((j : ℕ) : ℤ) < (n : ℤ) := by exact_mod_cast j.isLt
    have hj0 : (0 : ℤ) ≤ ((j : ℕ) : ℤ) := by positivity
    rw [if_neg (by omega)]

/-- Row sum of a `diagsC` matrix: each band contributes its coefficient
exactly when the corresponding column index lands inside the matrix. -/
lemma row_sum_diagsC {n : ℕ} (L : List (ℤ × ℚ)) (i : Fin n) :
    (∑ j : Fin n, diagsC L n i j) =
      (L.map (fun p =>
        if 0 ≤ ((i : ℕ) : ℤ) + p.1 ∧ ((i : ℕ) : ℤ) + p.1 < (n : ℤ) then p.2 else 0)).sum := by
  induction L with
  | nil => simp [diagsC, bandVal]
  | cons p tl ih =>
      simp only [diagsC_apply, bandVal_cons] at *
      rw [Finset.sum_add_distrib, sum_ite_offset i p.1 p.2, ih, List.map_cons,
        List.sum_cons]

lemma sum_ite_offset_erase_le {n : ℕ} (i : Fin n) (o : ℤ) (c : ℚ) (hc : 0 ≤ c) :
    (∑ j in Finset.univ.erase i, if o = ((j : ℕ) : ℤ) - ((i : ℕ) : ℤ) then c else 0) ≤
      if o ≠ 0 then c else 0 := by
  by_cases ho : o = 0
  · subst ho
    rw [if_neg (by simp), Finset.sum_eq_zero]
    intro j hj
    have hji : (j : ℕ) ≠ (i : ℕ) :=
      fun hc => (Finset.mem_erase.mp hj).1 (Fin.ext hc)
    rw [if_neg (by omega)]
  · rw [if_pos ho]
    calc (∑ j in Finset.univ.erase i, if o = ((j : ℕ) : ℤ) - ((i : ℕ) : ℤ) then c else 0)
        ≤ ∑ j : Fin n, if o = ((j : ℕ) : ℤ) - ((i : ℕ) : ℤ) then c else 0 :=
          Finset.sum_le_sum_of_subset_of_nonneg (Finset.subset_univ _)
            (fun j _ _ => by split <;> simp [hc])
      _ = if 0 ≤ ((i : ℕ) : ℤ) + o ∧ ((i : ℕ) : ℤ) + o < (n : ℤ) then c else 0 :=
          sum_ite_offset i o c
      _ ≤ c := by split <;> simp [hc]

/-- The absolute off-diagonal row sum of a `diagsC` matrix is at most the
sum of the magnitudes of the nonzero-offset band coefficients. -/
lemma offdiag_abs_sum_le {n : ℕ} (L : List (ℤ × ℚ)) (i : Fin n) :
    (∑ j in Finset.univ.erase i, |diagsC L n i j|) ≤
      ((L.filter (fun p => p.1 ≠ 0)).map (fun p => |p.2|)).sum := by
  induction L with
  | nil => simp [diagsC, bandVal]
  | cons p tl ih =>
      have hstep : ∀ j : Fin n, |diagsC (p :: tl) n i j| ≤
          (if p.1 = ((j : ℕ) : ℤ) - ((i : ℕ) : ℤ) then |p.2| else 0) + |diagsC tl n i j| := by
        intro j
        rw [diagsC_apply, bandVal_cons, ← diagsC_apply tl]
        refine le_trans (abs_add _ _) ?_
        gcongr
        split <;> simp
      calc (∑ j in Finset.univ.erase i, |diagsC (p :: tl) n i j|)
          ≤ ∑ j in Finset.univ.erase i,
            ((if p.1 = ((j : ℕ) : ℤ) - ((i : ℕ) : ℤ) then |p.2| else 0) +
              |diagsC tl n i j|) := Finset.sum_le_sum (fun j _ => hstep j)
        _ = (∑ j in Finset.univ.erase i,
              if p.1 = ((j : ℕ) : ℤ) - ((i : ℕ) : ℤ) then |p.2| else 0) +
            ∑ j in Finset.univ.erase i, |diagsC tl n i j| := Finset.sum_add_distrib
        _ ≤ (if p.1 ≠ 0 then |p.2| else 0) +
            ((tl.filter (fun p => p.1 ≠ 0)).map (fun p => |p.2|)).sum := by
              gcongr
              exact sum_ite_offset_erase_le i p.1 |p.2| (abs_nonneg _)
        _ = (((p :: tl).filter (fun p => p.1 ≠ 0)).map (fun p => |p.2|)).sum := by
              rw [List.filter_cons]
              by_cases hp : p.1 = 0 <;> simp [hp]

/-! ### Strict diagonal dominance: injectivity and unique solvability -/

/-- Levy–Desplanques over `ℚ`: a strictly row diagonally dominant matrix has
an injective matrix–vector product. -/
theorem dominant_mulVec_injective {n : ℕ} (A : Matrix (Fin n) (Fin n) ℚ)
    (hdom : ∀ i, (∑ j in Finset.univ.erase i, |A i j|) < |A i i|) :
    Function.Injective A.mulVec := by
  have hker : ∀ x, A.mulVec x = 0 → x = 0 := by
    intro x hx
    by_contra hne
    obtain ⟨j0, hj0⟩ : ∃ j, x j ≠ 0 := by
      by_contra hcon
      push_neg at hcon
      exact hne (funext hcon)
    obtain ⟨i, -, hmax⟩ :=
      Finset.exists_max_image Finset.univ (fun j => |x j|) ⟨j0, Finset.mem_univ _⟩
    have hxi : 0 < |x i| :=
      lt_of_lt_of_le (abs_pos.mpr hj0) (hmax j0 (Finset.mem_univ _))
    have hrow : (∑ j, A i j * x j) = 0 := by
      have := congrFun hx i
      simpa [Matrix.mulVec, Matrix.dotProduct] using this
    have hsplit : A i i * x i = -∑ j in Finset.univ.erase i, A i j * x j := by
      have h : A i i * x i + ∑ j in Finset.univ.erase i, A i j * x j =
          ∑ j, A i j * x j :=
        Finset.add_sum_erase Finset.univ (fun j => A i j * x j) (Finset.mem_univ i)
      rw [hrow] at h
      linarith
    have habs : |A i i| * |x i| ≤ (∑ j in Finset.univ.erase i, |A i j|) * |x i| :=
      calc |A i i| * |x i| = |A i i * x i| := (abs_mul _ _).symm
        _ = |∑ j in Finset.univ.erase i, A i j * x j| := by rw [hsplit, abs_neg]
        _ ≤ ∑ j in Finset.univ.erase i, |A i j * x j| :=
            Finset.abs_sum_le_sum_abs _ _
        _ ≤ ∑ j in Finset.univ.erase i, |A i j| * |x i| :=
            Finset.sum_le_sum (fun j _ => by
              rw [abs_mul]
              exact mul_le_mul_of_nonneg_left (hmax j (Finset.mem_univ _))
                (abs_nonneg _))
        _ = (∑ j in Finset.univ.erase i, |A i j|) * |x i| :=
            (Finset.sum_mul _ _ _).symm
    exact absurd (hdom i) (not_lt.mpr (le_of_mul_le_mul_right habs hxi))
  intro x y hxy
  have hz : A.mulVec (x - y) = 0 := by
    rw [Matrix.mulVec_sub, hxy, sub_self]
  exact sub_eq_zero.mp (hker _ hz)

/-- A strictly row diagonally dominant rational system has exactly one
solution for every right-hand side. -/
theorem dominant_existsUnique {n : ℕ} (A : Matrix (Fin n) (Fin n) ℚ)
    (hdom : ∀ i, (∑ j in Finset.univ.erase i, |A i j|) < |A i i|) :
    ∀ b, ∃! x, A.mulVec x = b := by
  have hinj := dominant_mulVec_injective A hdom
  have hinj2 : Function.Injective A.mulVecLin := by
    intro x y hxy
    exact hinj (by simpa [Matrix.mulVecLin_apply] using hxy)
  have hsurj := LinearMap.injective_iff_surjective.mp hinj2
  intro b
  obtain ⟨x, hx⟩ := hsurj b
  rw [Matrix.mulVecLin_apply] at hx
  exact ⟨x, hx, fun y hy => hinj (hy.trans hx.symm)⟩

/-! ### Symmetry of `diagsC` matrices -/

lemma bandVal_negMap (L : List (ℤ × ℚ)) (o : ℤ) :
    bandVal (L.map (fun p => (-p.1, p.2))) o = bandVal L (-o) := by
  induction L with
  | nil => rfl
  | cons p tl ih =>
      rw [List.map_cons, bandVal_cons, bandVal_cons, ih]
      congr 1
      exact if_congr ⟨fun h => by omega, fun h => by omega⟩ rfl rfl

lemma bandVal_perm {L L' : List (ℤ × ℚ)} (h : L.Perm L') (o : ℤ) :
    bandVal L o = bandVal L' o :=
  List.Perm.sum_eq (List.Perm.map _ (List.Perm.filter _ h))

/-- A `diagsC` matrix whose band list is invariant (up to permutation) under
negating all offsets is symmetric. -/
lemma diagsC_symm {L : List (ℤ × ℚ)} {n : ℕ}
    (h : (L.map (fun p => (-p.1, p.2))).Perm L) :
    (diagsC L n)ᵀ = diagsC L n := by
  ext i j
  rw [Matrix.transpose_apply, diagsC_apply, diagsC_apply]
  calc bandVal L (((i : ℕ) : ℤ) - ((j : ℕ) : ℤ))
      = bandVal (L.map (fun p => (-p.1, p.2))) (((j : ℕ) : ℤ) - ((i : ℕ) : ℤ)) := by
        rw [bandVal_negMap]
        congr 1
        omega
    _ = bandVal L (((j : ℕ) : ℤ) - ((i : ℕ) : ℤ)) := bandVal_perm h _

/-! ### Entry values and dominance for the assembled matrices -/

lemma diagsC_diag (L : List (ℤ × ℚ)) (n : ℕ) (i : Fin n) :
    diagsC L n i i = bandVal L 0 := by
  rw [diagsC_apply, sub_self]

lemma A1dS_diag (r : ℚ) (m : ℕ) (i : Fin m) : A1dS r m i i = 2 * (1 + r) := by
  rw [A1dS, diagsC_diag]
  norm_num [bandVal_cons, bandVal_nil]

lemma A1d_diag (m : ℕ) (i : Fin m) : A1d m i i = 4 := by
  rw [A1d, diagsC_diag]
  norm_num [bandVal_cons, bandVal_nil]

lemma A2d_diag (r : ℚ) (N : ℕ) (hN : 1 ≤ N) (i : Fin (N * N)) :
    A2d r N i i = 1 + 4 * r := by
  have h1 : ¬((N : ℤ) = 0) := by omega
  have h2 : ¬(-(N : ℤ) = 0) := by omega
  rw [A2d, diagsC_diag]
  norm_num [bandVal_cons, bandVal_nil, h1, h2]

lemma M2d_diag (r : ℚ) (N : ℕ) (hN : 1 ≤ N) (i : Fin (N * N)) :
    M2d r N i i = 1 - 4 * r := by
  have h1 : ¬((N : ℤ) = 0) := by omega
  have h2 : ¬(-(N : ℤ) = 0) := by omega
  rw [M2d, diagsC_diag]
  norm_num [bandVal_cons, bandVal_nil, h1, h2]

/-- Strict diagonal dominance of the general-`r` 1D implicit matrix: every
row's off-diagonal magnitudes sum to at most `2r`, below the diagonal
`2(1+r)`. -/
lemma A1dS_dom (r : ℚ) (hr : 0 < r) (m : ℕ) (i : Fin m) :
    (∑ j in Finset.univ.erase i, |A1dS r m i j|) < |A1dS r m i i| := by
  have hb := offdiag_abs_sum_le [(-1, -r), (0, 2 * (1 + r)), (1, -r)] i
  have heval :
      (([((-1 : ℤ), -r), (0, 2 * (1 + r)), (1, -r)].filter
        (fun p => p.1 ≠ 0)).map (fun p => |p.2|)).sum = 2 * r := by
    norm_num [List.filter_cons, abs_of_pos hr]
    ring
  rw [A1dS_diag, abs_of_pos (by linarith), A1dS]
  exact lt_of_le_of_lt (heval ▸ hb) (by linarith)

/-- Strict diagonal dominance of the source's 1D implicit matrix (`r = 1`). -/
lemma A1d_dom (m : ℕ) (i : Fin m) :
    (∑ j in Finset.univ.erase i, |A1d m i j|) < |A1d m i i| := by
  have hb := offdiag_abs_sum_le [((-1 : ℤ), (-1 : ℚ)), (0, 4), (1, -1)] i
  have heval :
      (([((-1 : ℤ), (-1 : ℚ)), (0, 4), (1, -1)].filter
        (fun p => p.1 ≠ 0)).map (fun p => |p.2|)).sum = 2 := by
    norm_num [List.filter_cons]
  rw [A1d_diag, A1d]
  exact lt_of_le_of_lt (heval ▸ hb) (by norm_num)

/-- Strict diagonal dominance of the source's 2D implicit matrix: the
off-diagonal magnitudes sum to at most `4r`, below the diagonal `1 + 4r`.
(This holds even with the wrapped `±1` bands: each row still meets at most
the four band offsets.) -/
lemma A2d_dom (r : ℚ) (hr : 0 < r) (N : ℕ) (hN : 1 ≤ N) (i : Fin (N * N)) :
    (∑ j in Finset.univ.erase i, |A2d r N i j|) < |A2d r N i i| := by
  have h1 : ¬((N : ℤ) = 0) := by omega
  have h2 : ¬(-(N : ℤ) = 0) := by omega
  have hb := offdiag_abs_sum_le
    [((0 : ℤ), 1 + 4 * r), (-1, -r), (1, -r), ((N : ℤ), -r), (-(N : ℤ), -r)] i
  have heval :
      (([((0 : ℤ), 1 + 4 * r), (-1, -r), (1, -r), ((N : ℤ), -r),
        (-(N : ℤ), -r)].filter (fun p => p.1 ≠ 0)).map (fun p => |p.2|)).sum
        = 4 * r := by
    norm_num [List.filter_cons, h1, h2, abs_of_pos hr]
    ring
  rw [A2d_diag r N hN, abs_of_pos (by linarith), A2d]
  exact lt_of_le_of_lt (heval ▸ hb) (by linarith)

/-- The general-`r` 1D implicit matrix is symmetric. -/
lemma A1dS_symm (r : ℚ) (m : ℕ) : (A1dS r m)ᵀ = A1dS r m := by
  apply diagsC_symm
  simp only [List.map_cons, List.map_nil, neg_neg, neg_zero]
  exact List.reverse_perm [((-1 : ℤ), -r), (0, 2 * (1 + r)), (1, -r)]

/-- The source's 2D implicit matrix is symmetric. -/
lemma A2d_symm (r : ℚ) (N : ℕ) : (A2d r N)ᵀ = A2d r N := by
  apply diagsC_symm
  simp only [List.map_cons, List.map_nil, neg_neg, neg_zero]
  exact List.Perm.cons _ ((List.Perm.swap _ _ _).trans
    (List.Perm.cons _ (List.Perm.cons _ (List.Perm.swap _ _ _))))

/-! ### Trajectory lemmas -/

lemma iterList_length {α : Type} (f : α → α) :
    ∀ (t : ℕ) (a : α), (iterList f t a).length = t := by
  intro t
  induction t with
  | zero => intro a; rfl
  | succ s ih => intro a; simp [iterList, ih]

lemma cons_iterList_getD_succ {α : Type} (f : α → α) (d : α) :
    ∀ (i t : ℕ) (a : α), i + 1 ≤ t →
      (a :: iterList f t a).getD (i + 1) d = f ((a :: iterList f t a).getD i d) := by
  intro i
  induction i with
  | zero =>
      intro t a ht
      match t, ht with
      | s + 1, _ => rfl
  | succ i ih =>
      intro t a ht
      match t, ht with
      | s + 1, ht =>
          have hs : i + 1 ≤ s := by omega
          calc (a :: iterList f (s + 1) a).getD (i + 2) d
              = (f a :: iterList f s (f a)).getD (i + 1) d := rfl
            _ = f ((f a :: iterList f s (f a)).getD i d) := ih s (f a) hs
            _ = f ((a :: iterList f (s + 1) a).getD (i + 1) d) := rfl

lemma run1d_length (k : ℕ) (solver : (Fin (k + 2) → ℚ) → Fin (k + 2) → ℚ)
    (left right : ℚ) (tEnd : ℕ) (arr : Fin (k + 4) → ℚ) (h : 1 ≤ tEnd) :
    (run1d k solver left right tEnd arr).length = tEnd := by
  rw [run1d, List.length_cons, iterList_length]
  omega

lemma run2d_length (N : ℕ) (r : ℚ)
    (solver : (Fin (N * N) → ℚ) → (Fin (N * N) → ℚ) × ℤ)
    (steps : ℕ) (v0 : Fin (N * N) → ℚ) (h : 1 ≤ steps) :
    (run2d N r solver steps v0).length = steps := by
  rw [run2d, List.length_cons, iterList_length]
  omega

/-! ### Evaluation of the 1D explicit product at the end slots -/

lemma B1d_mulVec_first (k : ℕ) (u : Fin (k + 2) → ℚ) :
    (B1d (k + 2)).mulVec u ⟨0, by omega⟩ = u ⟨1, by omega⟩ := by
  show (∑ j, B1d (k + 2) ⟨0, by omega⟩ j * u j) = u ⟨1, by omega⟩
  rw [Finset.sum_eq_single_of_mem ⟨1, by omega⟩ (Finset.mem_univ _)]
  · norm_num [B1d, diagsC_apply, bandVal_cons, bandVal_nil]
  · intro b _ hb
    have hbv : (b : ℕ) ≠ 1 := fun hc => hb (Fin.ext hc)
    have hz : B1d (k + 2) ⟨0, by omega⟩ b = 0 := by
      rw [B1d, diagsC_apply]
      apply bandVal_eq_zero
      intro p hp
      rcases List.mem_cons.mp hp with rfl | hp2
      · simp only [Fin.val_mk]; omega
      rcases List.mem_cons.mp hp2 with rfl | hp3
      · simp only [Fin.val_mk]; omega
      · exact absurd hp3 (List.not_mem_nil p)
    rw [hz, zero_mul]

lemma B1d_mulVec_last (k : ℕ) (u : Fin (k + 2) → ℚ) :
    (B1d (k + 2)).mulVec u ⟨k + 1, by omega⟩ = u ⟨k, by omega⟩ := by
  show (∑ j, B1d (k + 2) ⟨k + 1, by omega⟩ j * u j) = u ⟨k, by omega⟩
  rw [Finset.sum_eq_single_of_mem ⟨k, by omega⟩ (Finset.mem_univ _)]
  · norm_num [B1d, diagsC_apply, bandVal_cons, bandVal_nil]
  · intro b _ hb
    have hbv : (b : ℕ) ≠ k := fun hc => hb (Fin.ext hc)
    have hbl : (b : ℕ) < k + 2 := b.isLt
    have hz : B1d (k + 2) ⟨k + 1, by omega⟩ b = 0 := by
      rw [B1d, diagsC_apply]
      apply bandVal_eq_zero
      intro p hp
      rcases List.mem_cons.mp hp with rfl | hp2
      · simp only [Fin.val_mk]; omega
      rcases List.mem_cons.mp hp2 with rfl | hp3
      · simp only [Fin.val_mk]; omega
      · exact absurd hp3 (List.not_mem_nil p)
    rw [hz, zero_mul]

/-! ### The constant field is a fixed point of the `r = 1` 1D step -/

/-- Applying the source's implicit matrix to a constant field reproduces the
right-hand side the loop assembles from that constant field with matching
boundary values. -/
lemma A1d_mulVec_const (k : ℕ) (v : ℚ) :
    (A1d (k + 2)).mulVec (fun _ => v) = rhs1d k v v (fun _ => v) := by
  funext i
  have hilt : (i : ℕ) < k + 2 := i.isLt
  have hA : (A1d (k + 2)).mulVec (fun _ => v) i = (∑ j, A1d (k + 2) i j) * v := by
    simp [Matrix.mulVec, Matrix.dotProduct, Finset.sum_mul]
  have hB : (B1d (k + 2)).mulVec (fun _ => v) i = (∑ j, B1d (k + 2) i j) * v := by
    simp [Matrix.mulVec, Matrix.dotProduct, Finset.sum_mul]
  rw [hA, A1d, row_sum_diagsC]
  simp only [List.map_cons, List.map_nil, List.sum_cons, List.sum_nil]
  by_cases h0 : (i : ℕ) = 0
  · rw [rhs1d, if_pos h0]
    rw [if_neg (by omega), if_pos (by omega), if_pos (by omega)]
    ring
  · by_cases hl : (i : ℕ) = k + 1
    · rw [rhs1d, if_neg h0, if_pos hl]
      rw [if_pos (by omega), if_pos (by omega), if_neg (by omega)]
      ring
    · rw [rhs1d, if_neg h0, if_neg hl, hB, B1d, row_sum_diagsC]
      simp only [List.map_cons, List.map_nil, List.sum_cons, List.sum_nil]
      rw [if_pos (by omega), if_pos (by omega), if_pos (by omega),
        if_pos (by omega), if_pos (by omega)]
      ring

/-! ### Entry characterization of the tridiagonal matrices -/

lemma diagsC_tri_apply (x y : ℚ) (m : ℕ) (i j : Fin m) :
    diagsC [(-1, x), (0, y), (1, x)] m i j =
      if (i : ℕ) = (j : ℕ) then y
      else if ((i : ℕ) = (j : ℕ) + 1 ∨ (j : ℕ) = (i : ℕ) + 1) then x
      else 0 := by
  rw [diagsC_apply]
  by_cases h0 : (i : ℕ) = (j : ℕ)
  · rw [if_pos h0, show ((j : ℕ) : ℤ) - ((i : ℕ) : ℤ) = 0 by omega]
    norm_num [bandVal_cons, bandVal_nil]
  · rw [if_neg h0]
    by_cases h1 : (i : ℕ) = (j : ℕ) + 1
    · rw [if_pos (Or.inl h1), show ((j : ℕ) : ℤ) - ((i : ℕ) : ℤ) = -1 by omega]
      norm_num [bandVal_cons, bandVal_nil]
    · by_cases h2 : (j : ℕ) = (i : ℕ) + 1
      · rw [if_pos (Or.inr h2), show ((j : ℕ) : ℤ) - ((i : ℕ) : ℤ) = 1 by omega]
        norm_num [bandVal_cons, bandVal_nil]
      · rw [if_neg (by tauto)]
        apply bandVal_eq_zero
        intro p hp
        rcases List.mem_cons.mp hp with rfl | hp2
        · omega
        rcases List.mem_cons.mp hp2 with rfl | hp3
        · omega
        rcases List.mem_cons.mp hp3 with rfl | hp4
        · omega
        · exact absurd hp4 (List.not_mem_nil p)

lemma diagsC_bi_apply (x : ℚ) (m : ℕ) (i j : Fin m) :
    diagsC [(-1, x), (1, x)] m i j =
      if ((i : ℕ) = (j : ℕ) + 1 ∨ (j : ℕ) = (i : ℕ) + 1) then x else 0 := by
  rw [diagsC_apply]
  by_cases h1 : (i : ℕ) = (j : ℕ) + 1
  · rw [if_pos (Or.inl h1), show ((j : ℕ) : ℤ) - ((i : ℕ) : ℤ) = -1 by omega]
    norm_num [bandVal_cons, bandVal_nil]
  · by_cases h2 : (j : ℕ) = (i : ℕ) + 1
    · rw [if_pos (Or.inr h2), show ((j : ℕ) : ℤ) - ((i : ℕ) : ℤ) = 1 by omega]
      norm_num [bandVal_cons, bandVal_nil]
    · rw [if_neg (by tauto)]
      apply bandVal_eq_zero
      intro p hp
      rcases List.mem_cons.mp hp with rfl | hp2
      · omega
      rcases List.mem_cons.mp hp2 with rfl | hp3
      · omega
      · exact absurd hp3 (List.not_mem_nil p)

/-! ### Further loop helpers and the concrete 2D solve -/

lemma iterList_congr {α : Type} {f g : α → α} (h : ∀ a, f a = g a) :
    ∀ (t : ℕ) (a : α), iterList f t a = iterList g t a := by
  intro t
  induction t with
  | zero => intro a; rfl
  | succ s ih =>
      intro a
      rw [iterList, iterList, h a, ih (g a)]

set_option maxHeartbeats 4000000 in
/-- The vector `x2d1` solves the first implicit step of the small 2D
instance exactly. -/
lemma x2d1_solves : (A2d (1/2) 3).mulVec x2d1 = (M2d (1/2) 3).mulVec v2d0 := by
  funext i
  fin_cases i <;>
    norm_num [Matrix.mulVec, Matrix.dotProduct, Fin.sum_univ_succ, A2d, M2d,
      diagsC_apply, bandVal_cons, bandVal_nil, v2d0, x2d1, init2d,
      Fin.val_succ, Fin.val_zero, Fin.coe_ofNat_eq_mod]

/-- Value of the exact step-1 solution at the masked center cell. -/
lemma x2d1_center : x2d1 ⟨4, by norm_num⟩ = -6190 / 2709 := rfl

/-- Strict diagonal dominance of the small 2D instance's matrix. -/
lemma A2d_small_dom :
    ∀ i, (∑ j in Finset.univ.erase i, |A2d (1/2) 3 i j|) < |A2d (1/2) 3 i i| :=
  fun i => A2d_dom (1/2) (by norm_num) 3 (by norm_num) i

/-! ## Claim theorems -/

/-- C1: the claim states that for `N ≥ 3` the `±1` bands of the assembled 2D
matrices have no nonzero coefficient connecting a row-end cell to the next
row-start cell.  The source builds those bands with full-length constant
arrays, so at `N = 4`, `r = 1/2` the wrap entries between flat indices `3`
(row end, `3 % 4 = 4 - 1`) and `4` (next row start) equal `-r` in `A` and
`r` in `M`, not `0`: the code contradicts the specified (and physically
required) wrap correction. -/
theorem C1_wrap_band_nonzero :
    A2d (1/2) 4 ⟨3, by norm_num⟩ ⟨4, by norm_num⟩ = -(1/2) ∧
    A2d (1/2) 4 ⟨4, by norm_num⟩ ⟨3, by norm_num⟩ = -(1/2) ∧
    M2d (1/2) 4 ⟨3, by norm_num⟩ ⟨4, by norm_num⟩ = 1/2 ∧
    M2d (1/2) 4 ⟨4, by norm_num⟩ ⟨3, by norm_num⟩ = 1/2 ∧
    (3 : ℕ) % 4 = 4 - 1 := by
  refine ⟨?_, ?_, ?_, ?_, by norm_num⟩ <;>
    norm_num [A2d, M2d, diagsC_apply, bandVal_cons, bandVal_nil]

/-- C4 counterexample: the claim states that assembly fails with
`InvalidDimension` for `N = 2`; instead the source's 2D assembly succeeds at
`N = 2` and produces a well-formed `4 × 4` banded matrix (with wrapped
bands), with no validation anywhere. -/
theorem C4_assembly_succeeds_at_two :
    A2d (1/2) 2 = Matrix.of (fun i j : Fin (2 * 2) =>
      if (i : ℕ) = (j : ℕ) then 3
      else if ((i : ℕ) = (j : ℕ) + 1 ∨ (j : ℕ) = (i : ℕ) + 1 ∨
               (i : ℕ) = (j : ℕ) + 2 ∨ (j : ℕ) = (i : ℕ) + 2) then -(1/2)
      else 0) := by
  funext i j
  fin_cases i <;> fin_cases j <;>
    norm_num [A2d, diagsC_apply, bandVal_cons, bandVal_nil, Matrix.of_apply]

/-- C4 amended: the source performs no dimension validation and raises no
`InvalidDimension`; for every `N ≥ 2` (so in particular at `N = 2`, where
the claim demands failure) the 2D assembly succeeds, yielding main
diagonals `1 + 4r` (for `A`) and `1 - 4r` (for `M`).  (`N = 1` still fails
in the source, but only with scipy's generic duplicate-offset
`ValueError`.) -/
theorem C4_no_dimension_validation (r : ℚ) (N : ℕ) (hN : 2 ≤ N)
    (i : Fin (N * N)) :
    A2d r N i i = 1 + 4 * r ∧ M2d r N i i = 1 - 4 * r :=
  ⟨A2d_diag r N (by omega) i, M2d_diag r N (by omega) i⟩

/-- C4 witness: the amended theorem applied at `N = 2`, `r = 1/2`. -/
theorem C4_no_dimension_validation_witness :
    (2 : ℕ) ≤ 2 ∧
    A2d (1/2) 2 ⟨0, by norm_num⟩ ⟨0, by norm_num⟩ = 1 + 4 * (1/2) ∧
    M2d (1/2) 2 ⟨0, by norm_num⟩ ⟨0, by norm_num⟩ = 1 - 4 * (1/2) :=
  ⟨by norm_num,
   (C4_no_dimension_validation (1/2) 2 (by norm_num) ⟨0, by norm_num⟩).1,
   (C4_no_dimension_validation (1/2) 2 (by norm_num) ⟨0, by norm_num⟩).2⟩

/-- C5: the 1D implicit matrix is tridiagonal with main diagonal `2(1+r)`
and off-diagonals `-r`; the explicit matrix is tridiagonal with zero main
diagonal and off-diagonals `r`; at `r = 1` they collapse to the source's
matrices with diagonal `4` / off-diagonal `-1` and off-diagonal `1`. -/
theorem C5_oneD_assembly (r : ℚ) (m : ℕ) (i j : Fin m) :
    (A1dS r m i j =
      if (i : ℕ) = (j : ℕ) then 2 * (1 + r)
      else if ((i : ℕ) = (j : ℕ) + 1 ∨ (j : ℕ) = (i : ℕ) + 1) then -r
      else 0) ∧
    (B1dS r m i j =
      if ((i : ℕ) = (j : ℕ) + 1 ∨ (j : ℕ) = (i : ℕ) + 1) then r else 0) ∧
    A1dS 1 m = A1d m ∧ B1dS 1 m = B1d m ∧
    (A1d m i j =
      if (i : ℕ) = (j : ℕ) then 4
      else if ((i : ℕ) = (j : ℕ) + 1 ∨ (j : ℕ) = (i : ℕ) + 1) then -1
      else 0) ∧
    (B1d m i j =
      if ((i : ℕ) = (j : ℕ) + 1 ∨ (j : ℕ) = (i : ℕ) + 1) then 1 else 0) := by
  refine ⟨diagsC_tri_apply (-r) (2 * (1 + r)) m i j,
    diagsC_bi_apply r m i j, ?_, rfl,
    diagsC_tri_apply (-1) 4 m i j, diagsC_bi_apply 1 m i j⟩
  rw [A1dS, A1d]
  norm_num

/-- C6: in every 1D step the assembled right-hand side has
`2*left + u_prev[1]` in slot `0` and `2*right + u_prev[-2]` in the last
slot; moreover `(B·u)[0] = u[1]` and `(B·u)[last] = u[-2]`, so overwriting
the two slots is the same as adding `2*left` / `2*right` to the
corresponding entries of the explicit product. -/
theorem C6_boundary_injection (k : ℕ) (left right : ℚ) (u : Fin (k + 2) → ℚ) :
    rhs1d k left right u ⟨0, by omega⟩ = 2 * left + u ⟨1, by omega⟩ ∧
    rhs1d k left right u ⟨k + 1, by omega⟩ = 2 * right + u ⟨k, by omega⟩ ∧
    (B1d (k + 2)).mulVec u ⟨0, by omega⟩ = u ⟨1, by omega⟩ ∧
    (B1d (k + 2)).mulVec u ⟨k + 1, by omega⟩ = u ⟨k, by omega⟩ ∧
    rhs1d k left right u = fun i => (B1d (k + 2)).mulVec u i +
      (if (i : ℕ) = 0 then 2 * left
       else if (i : ℕ) = k + 1 then 2 * right else 0) := by
  refine ⟨?_, ?_, B1d_mulVec_first k u, B1d_mulVec_last k u, ?_⟩
  · simp [rhs1d]
  · simp [rhs1d]
  · funext i
    simp only [rhs1d]
    by_cases h0 : (i : ℕ) = 0
    · rw [if_pos h0, if_pos h0]
      have hi : i = ⟨0, by omega⟩ := Fin.ext h0
      rw [hi, B1d_mulVec_first k u]
      ring
    · rw [if_neg h0, if_neg h0]
      by_cases hl : (i : ℕ) = k + 1
      · rw [if_pos hl, if_pos hl]
        have hi : i = ⟨k + 1, by omega⟩ := Fin.ext hl
        rw [hi, B1d_mulVec_last k u]
        ring
      · rw [if_neg hl, if_neg hl]
        ring

/-- C7 counterexample: with the claim's general `r` (here `r = 1/2`,
interior size `3`, constant field `1` with boundaries `1`), the constant
field does not solve the assembled system — the right-hand side built by
the step differs from `A` applied to the constant field already in slot
`0` — so the step cannot return the constant field. -/
theorem C7_not_steady_at_half :
    (A1dS (1/2) (1 + 2)).mulVec (fun _ => (1 : ℚ)) ≠
      rhs1dS (1/2) 1 1 1 (fun _ => (1 : ℚ)) := by
  intro hcon
  have h0 := congrFun hcon ⟨0, by omega⟩
  norm_num [Matrix.mulVec, Matrix.dotProduct, Fin.sum_univ_succ, A1dS,
    diagsC_apply, bandVal_cons, bandVal_nil, rhs1dS,
    Fin.val_succ, Fin.val_zero, Fin.coe_ofNat_eq_mod] at h0

/-- C7 amended: at the source's actual parameter `r = 1` the steady-state
no-op holds — for every interior size and scalar `v`, any `x` solving
`A · x = rhs` for the rhs the loop builds from the constant field `v` with
boundary values `v` is the constant field `v` itself. -/
theorem C7_steady_state_r_one (k : ℕ) (v : ℚ) (x : Fin (k + 2) → ℚ)
    (hx : (A1d (k + 2)).mulVec x = rhs1d k v v (fun _ => v)) :
    x = fun _ => v :=
  dominant_mulVec_injective (A1d (k + 2)) (A1d_dom (k + 2))
    (hx.trans (A1d_mulVec_const k v).symm)

/-- C7 witness: the amended theorem applied at interior size `2`, `v = 7`. -/
theorem C7_steady_state_witness :
    (A1d (0 + 2)).mulVec (fun _ => (7 : ℚ)) = rhs1d 0 7 7 (fun _ => 7) ∧
    ((fun _ => (7 : ℚ)) : Fin (0 + 2) → ℚ) = fun _ => 7 :=
  ⟨A1d_mulVec_const 0 7,
   C7_steady_state_r_one 0 7 (fun _ => 7) (A1d_mulVec_const 0 7)⟩

/-- C8: for every `r > 0` the implicit matrices — the general-`r` 1D `A`
(any size) and the source's 2D `A` (any `N ≥ 3`) — are symmetric and
strictly row diagonally dominant, hence `A · x = b` has exactly one
solution for every right-hand side. -/
theorem C8_dominance_unique_solution (r : ℚ) (hr : 0 < r) (m N : ℕ)
    (hN : 3 ≤ N) :
    (A1dS r m)ᵀ = A1dS r m ∧
    (∀ i, (∑ j in Finset.univ.erase i, |A1dS r m i j|) < |A1dS r m i i|) ∧
    (∀ b, ∃! x, (A1dS r m).mulVec x = b) ∧
    (A2d r N)ᵀ = A2d r N ∧
    (∀ i, (∑ j in Finset.univ.erase i, |A2d r N i j|) < |A2d r N i i|) ∧
    (∀ b, ∃! x, (A2d r N).mulVec x = b) :=
  ⟨A1dS_symm r m, fun i => A1dS_dom r hr m i,
   dominant_existsUnique _ (fun i => A1dS_dom r hr m i),
   A2d_symm r N, fun i => A2d_dom r hr N (by omega) i,
   dominant_existsUnique _ (fun i => A2d_dom r hr N (by omega) i)⟩

/-- C8 witness: unique solvability at `r = 1`, `N = 3`. -/
theorem C8_dominance_witness :
    (0 : ℚ) < 1 ∧ (3 : ℕ) ≤ 3 ∧ (∀ b, ∃! x, (A2d 1 3).mulVec x = b) :=
  ⟨by norm_num, by norm_num,
   (C8_dominance_unique_solution 1 (by norm_num) 1 3 (by norm_num)).2.2.2.2.2⟩

/-- C2 counterexample: in the 2D loop the masked fixed values are not
re-asserted; for `N = 3`, `r = 1/2`, the single masked center cell fixed at
`10` in snapshot `0`, the exact solution of the first implicit step (the
step-1 snapshot) has `-6190/2709 ≠ 10` at the masked cell. -/
theorem C2_mask_value_drifts :
    v2d0 ⟨4, by norm_num⟩ = 10 ∧
    (A2d (1/2) 3).mulVec x2d1 = (M2d (1/2) 3).mulVec v2d0 ∧
    x2d1 ⟨4, by norm_num⟩ ≠ 10 := by
  refine ⟨?_, x2d1_solves, ?_⟩
  · simp [v2d0, init2d, Fin.ext_iff, Fin.coe_ofNat_eq_mod]
  · rw [x2d1_center]
    norm_num

/-- C2 amended: the masked fixed values hold in the initial field (snapshot
`0`), but the 2D loop never re-asserts them: every solution of the first
step's system of the small instance differs from the fixed value `10` at
the masked cell, so the invariant fails from step `1` on.  (In 1D the two
boundary scalars live outside the recorded interior state entirely.) -/
theorem C2_no_reassertion (N : ℕ) (mask : Finset (Fin (N * N))) (val : ℚ)
    (p : Fin (N * N)) (hp : p ∈ mask) :
    init2d N mask val p = val ∧
    ∀ x : Fin (3 * 3) → ℚ,
      (A2d (1/2) 3).mulVec x = (M2d (1/2) 3).mulVec v2d0 →
        x ⟨4, by norm_num⟩ ≠ 10 := by
  constructor
  · simp [init2d, hp]
  · intro x hx
    have hinj := dominant_mulVec_injective (A2d (1/2) 3) A2d_small_dom
    have hxx : x = x2d1 := hinj (hx.trans x2d1_solves.symm)
    rw [hxx, x2d1_center]
    norm_num

/-- C2 witness: the amended theorem applied to the masked center cell and
to the exact step-1 solution. -/
theorem C2_no_reassertion_witness :
    init2d 3 {(4 : Fin (3 * 3))} 10 ⟨4, by norm_num⟩ = 10 ∧
    x2d1 ⟨4, by norm_num⟩ ≠ 10 :=
  ⟨(C2_no_reassertion 3 {(4 : Fin (3 * 3))} 10 ⟨4, by norm_num⟩ (by decide)).1,
   (C2_no_reassertion 3 {(4 : Fin (3 * 3))} 10 ⟨4, by norm_num⟩ (by decide)).2
     x2d1 x2d1_solves⟩

/-- C3 counterexample: with a solver that always reports non-convergence
(`info = 1`), the 2D run still appends every snapshot: a `steps = 4` run
records 4 snapshots — there is no halt after the failing first step, no
error state, and no surfaced step index. -/
theorem C3_run_ignores_nonconvergence :
    ((fun b : Fin (3 * 3) → ℚ => (b, (1 : ℤ)))
        ((M2d (1/2) 3).mulVec v2d0)).2 ≠ 0 ∧
    (run2d 3 (1/2) (fun b => (b, 1)) 4 v2d0).length = 4 :=
  ⟨by norm_num, run2d_length 3 (1/2) _ 4 v2d0 (by norm_num)⟩

/-- C3 amended: the loop binds the solver's `info` component to `_` and
discards it — the trajectory depends only on the solution component, and
regardless of the reported `info` values the run always performs the full
configured number of steps. -/
theorem C3_info_discarded (N : ℕ) (r : ℚ)
    (s1 s2 : (Fin (N * N) → ℚ) → (Fin (N * N) → ℚ) × ℤ)
    (hagree : ∀ b, (s1 b).1 = (s2 b).1) (steps : ℕ) (hs : 1 ≤ steps)
    (v0 : Fin (N * N) → ℚ) :
    run2d N r s1 steps v0 = run2d N r s2 steps v0 ∧
    (run2d N r s1 steps v0).length = steps := by
  constructor
  · exact congrArg (fun l => v0 :: l)
      (iterList_congr (fun v => by rw [step2d, step2d, hagree]) (steps - 1) v0)
  · exact run2d_length N r s1 steps v0 hs

/-- C3 witness: the amended theorem applied to the always-`info = 1` and
always-`info = 0` solvers returning the input unchanged. -/
theorem C3_info_discarded_witness :
    (1 : ℕ) ≤ 2 ∧
    run2d 3 (1/2) (fun b => (b, 1)) 2 v2d0 =
      run2d 3 (1/2) (fun b => (b, 0)) 2 v2d0 ∧
    (run2d 3 (1/2) (fun b => (b, 1)) 2 v2d0).length = 2 :=
  ⟨by norm_num,
   (C3_info_discarded 3 (1/2) _ _ (fun b => rfl) 2 (by norm_num) v2d0).1,
   (C3_info_discarded 3 (1/2) _ _ (fun b => rfl) 2 (by norm_num) v2d0).2⟩

/-- C9 counterexample: the claim says every 1D trajectory snapshot has
length `N`; in the source the stored rows hold the interior only — with
`N = 5` the first recorded snapshot has `3 = N - 2` values, not `5`. -/
theorem C9_snapshot_is_interior_only :
    ((storage1d 1 (fun b => b) 10 10 1 (fun _ => 0)).getD 0 []).length = 3 ∧
    (3 : ℕ) ≠ 1 + 4 := by
  constructor
  · rfl
  · norm_num

/-- C9 amended: every recorded 1D snapshot has `N - 2` values (the interior
only; the two boundary cells live outside the solver state and are never
written by it), and every recorded 2D snapshot has `N * N` values. -/
theorem C9_recorded_lengths (k : ℕ)
    (solver1 : (Fin (k + 2) → ℚ) → Fin (k + 2) → ℚ) (left right : ℚ)
    (T : ℕ) (arr : Fin (k + 4) → ℚ) (N : ℕ) (r : ℚ)
    (solver2 : (Fin (N * N) → ℚ) → (Fin (N * N) → ℚ) × ℤ) (steps : ℕ)
    (v0 : Fin (N * N) → ℚ) :
    (∀ s ∈ storage1d k solver1 left right T arr, s.length = k + 2) ∧
    (∀ s ∈ storage2d N r solver2 steps v0, s.length = N * N) := by
  constructor
  · intro s hs
    rw [storage1d] at hs
    obtain ⟨u, hu, rfl⟩ := List.mem_map.mp hs
    exact List.length_ofFn u
  · intro s hs
    rw [storage2d] at hs
    obtain ⟨u, hu, rfl⟩ := List.mem_map.mp hs
    exact List.length_ofFn u

/-- C9 witness: the amended theorem applied to the first snapshots of
concrete 1D and 2D runs. -/
theorem C9_recorded_lengths_witness :
    (List.ofFn (interior 1 (fun _ => (0 : ℚ)))).length = 1 + 2 ∧
    (List.ofFn v2d0).length = 3 * 3 :=
  ⟨(C9_recorded_lengths 1 (fun b => b) 10 10 1 (fun _ => 0) 3 (1/2)
      (fun b => (b, 1)) 1 v2d0).1 _ (by simp [storage1d, run1d, iterList]),
   (C9_recorded_lengths 1 (fun b => b) 10 10 1 (fun _ => 0) 3 (1/2)
      (fun b => (b, 1)) 1 v2d0).2 _ (by simp [storage2d, run2d, iterList])⟩

/-- C10: a completed run of `T` configured steps records exactly `T`
snapshots — snapshot `0` is the initial field (interior-only in 1D, full
flattened grid in 2D), the tail holds `T - 1` entries, one per implicit
solve, and each snapshot `i + 1` is the step function (right-hand-side
assembly plus solver call) applied to snapshot `i`. -/
theorem C10_trajectory_shape (k : ℕ)
    (solver1 : (Fin (k + 2) → ℚ) → Fin (k + 2) → ℚ) (left right : ℚ)
    (T : ℕ) (hT : 1 ≤ T) (arr : Fin (k + 4) → ℚ) (N : ℕ) (r : ℚ)
    (solver2 : (Fin (N * N) → ℚ) → (Fin (N * N) → ℚ) × ℤ) (steps : ℕ)
    (hsteps : 1 ≤ steps) (v0 : Fin (N * N) → ℚ) :
    (run1d k solver1 left right T arr).length = T ∧
    (run1d k solver1 left right T arr).tail.length = T - 1 ∧
    (run1d k solver1 left right T arr).getD 0 (fun _ => 0) = interior k arr ∧
    (∀ i, i + 1 < T →
      (run1d k solver1 left right T arr).getD (i + 1) (fun _ => 0) =
        step1d k solver1 left right
          ((run1d k solver1 left right T arr).getD i (fun _ => 0))) ∧
    (run2d N r solver2 steps v0).length = steps ∧
    (run2d N r solver2 steps v0).tail.length = steps - 1 ∧
    (run2d N r solver2 steps v0).getD 0 (fun _ => 0) = v0 ∧
    (∀ i, i + 1 < steps →
      (run2d N r solver2 steps v0).getD (i + 1) (fun _ => 0) =
        step2d N r solver2 ((run2d N r solver2 steps v0).getD i (fun _ => 0))) := by
  refine ⟨run1d_length k solver1 left right T arr hT, ?_, rfl, ?_,
    run2d_length N r solver2 steps v0 hsteps, ?_, rfl, ?_⟩
  · exact iterList_length _ (T - 1) _
  · intro i hi
    exact cons_iterList_getD_succ _ _ i (T - 1) _ (by omega)
  · exact iterList_length _ (steps - 1) _
  · intro i hi
    exact cons_iterList_getD_succ _ _ i (steps - 1) _ (by omega)

/-- C10 witness: the trajectory-shape theorem applied to concrete two-step
1D and 2D runs. -/
theorem C10_trajectory_witness :
    (1 : ℕ) ≤ 2 ∧
    (run1d 0 (fun b => b) 10 10 2 (fun _ => 0)).length = 2 ∧
    (run2d 3 (1/2) (fun b => (b, 0)) 2 v2d0).length = 2 :=
  ⟨by norm_num,
   (C10_trajectory_shape 0 (fun b => b) 10 10 2 (by norm_num) (fun _ => 0) 3
      (1/2) (fun b => (b, 0)) 2 (by norm_num) v2d0).1,
   (C10_trajectory_shape 0 (fun b => b) 10 10 2 (by norm_num) (fun _ => 0) 3
      (1/2) (fun b => (b, 0)) 2 (by norm_num) v2d0).2.2.2.2.1⟩

end Heatflow
